import Mathlib

-- Verification of the audit-trail pipeline core: the overlap-aware document
-- chunker, the evidence/field provenance model, and the reliability-weighted
-- ranking logic of the query endpoint.
--
-- Texts are modelled as lists of characters (Python strings indexed by code
-- point); Python floats are modelled as rationals; Python dicts used as
-- string-keyed maps are modelled as association lists with overwrite-on-set.

namespace AuditTrail

-- Decimal representation of a natural number, as produced by Python's str
-- builtin applied to the (non-negative) chunk index.
def pyStr (n : Nat) : List Char :=
  if n = 0 then ['0'] else ((Nat.digits 10 n).map Nat.digitChar).reverse

-- Python slice text[s:e] for 0 <= s <= e <= len(text).
def pySlice (text : List Char) (s e : Nat) : List Char :=
  (text.take e).drop s

-- A chunk record as built by chunk_document in src/pipeline/chunking.py.
structure Chunk where
  chunk_id : List Char
  doc_id : List Char
  chunk_index : Nat
  text : List Char
  start_char : Nat
  end_char : Nat
deriving DecidableEq, Repr

-- The identifier derivation of chunking.py: the hash function sha256_hex
-- (hashlib.sha256 hex digest, an external library call) is modelled as an
-- uninterpreted function parameter; the spec describes it as a
-- collision-resistant hash, which the theorems render as injectivity.
def chunkId (sha256_hex : List Char → List Char) (doc_id : List Char)
    (chunk_index : Nat) (chunk_text : List Char) : List Char :=
  sha256_hex (doc_id ++ pyStr chunk_index ++ sha256_hex chunk_text)

-- Step size of the chunking loop: max(chunk_size - overlap, 1).  Natural
-- subtraction truncates at 0 exactly where the Python difference is
-- negative, and the max with 1 coincides in both cases.
def chunkStep (chunk_size overlap : Nat) : Nat :=
  max (chunk_size - overlap) 1

-- The while loop of chunk_document: while index < len(text), slice
-- [index, min(index+chunk_size, len(text))), emit a record, advance by step.
def chunkAux (sha256_hex : List Char → List Char) (doc_id text : List Char)
    (chunk_size overlap : Nat) (index chunk_index : Nat) : List Chunk :=
  if h : index < text.length then
    ⟨chunkId sha256_hex doc_id chunk_index
        (pySlice text index (min (index + chunk_size) text.length)),
      doc_id, chunk_index,
      pySlice text index (min (index + chunk_size) text.length),
      index, min (index + chunk_size) text.length⟩ ::
      chunkAux sha256_hex doc_id text chunk_size overlap
        (index + chunkStep chunk_size overlap) (chunk_index + 1)
  else []
termination_by text.length - index
decreasing_by
  have h1 : 1 ≤ chunkStep chunk_size overlap := le_max_right _ _
  omega

-- chunk_document of src/pipeline/chunking.py: early return on empty text,
-- then the chunking loop starting at offset 0 and chunk index 0.
def chunk_document (sha256_hex : List Char → List Char) (doc_id text : List Char)
    (chunk_size overlap : Nat) : List Chunk :=
  if text.isEmpty then [] else chunkAux sha256_hex doc_id text chunk_size overlap 0 0

-- The Evidence dataclass of src/common/evidence.py.
structure Evidence where
  source : String
  url : String
  retrieved_at : String
  as_of : String
  note : Option String
deriving DecidableEq, Repr

-- The Field dataclass of src/common/evidence.py; the dynamically typed
-- value slot (Any, default None) is modelled as an Option over a type
-- parameter.
structure Field (α : Type) where
  value : Option α
  evidence : Option Evidence
  flagged : Bool
  flag_reason : Option String
deriving DecidableEq, Repr

-- flag(reason) of evidence.py: all defaults except flagged and flag_reason.
def flag {α : Type} (reason : String) : Field α :=
  ⟨none, none, true, some reason⟩

-- ok(value, evidence) of evidence.py: all defaults except value and evidence.
def ok {α : Type} (value : α) (evidence : Evidence) : Field α :=
  ⟨some value, some evidence, false, none⟩

-- The score slot of a raw retrieval result, represented by how
-- float(res.get("score", 0)) in query_endpoint behaves on it: missing key
-- (get returns 0, so float gives 0), a numeric (int/float) value q, a
-- value of non-numeric type that the float conversion nevertheless
-- converts to q (for example the numeric string 2.5), or a value on which
-- the float conversion raises.
inductive RawScore where
  | missing : RawScore
  | num : Rat → RawScore
  | numStr : Rat → RawScore
  | malformed : RawScore
deriving DecidableEq, Repr

-- A raw retrieval result as consumed by query_endpoint: an optional
-- source_name, the score slot, and an opaque passthrough payload standing
-- for all other metadata fields of the record.
structure RawResult where
  source_name : Option String
  score : RawScore
  meta : Nat
deriving DecidableEq, Repr

-- The try/except float conversion of query_endpoint: only a raising
-- conversion becomes 0.0; a convertible value contributes its converted
-- number whether or not it was of a numeric type.
def parseScore : RawScore → Rat
  | RawScore.missing => 0
  | RawScore.num q => q
  | RawScore.numStr q => q
  | RawScore.malformed => 0

-- reliability_map.get(src_name, 1.0): a missing source_name key (None is
-- never a key of the string-keyed map) and an unknown name both fall back
-- to the neutral weight 1.0.
def getWeight (m : List (String × Rat)) : Option String → Rat
  | none => 1
  | some s => (m.lookup s).getD 1

-- A raw result after the weighting loop attached res["weighted_score"]:
-- the record keeps all its original fields and gains the weighted score.
structure WeightedResult where
  raw : RawResult
  weighted_score : Rat
deriving DecidableEq, Repr

-- One iteration of the weighting loop of query_endpoint.
def weightResult (m : List (String × Rat)) (r : RawResult) : WeightedResult :=
  ⟨r, parseScore r.score * getWeight m r.source_name⟩

-- The whole weighting loop: every raw result is decorated, none dropped.
def applyWeights (m : List (String × Rat)) (l : List RawResult) : List WeightedResult :=
  l.map (weightResult m)

-- Stable insertion of x into a list sorted by weighted_score descending:
-- x goes before the first element whose key does not exceed its own, so an
-- earlier input element precedes later ones with an equal key.
def insertDesc (x : WeightedResult) : List WeightedResult → List WeightedResult
  | [] => [x]
  | y :: ys =>
    if y.weighted_score ≤ x.weighted_score then x :: y :: ys
    else y :: insertDesc x ys

-- sorted(raw_results, key score, reverse true) of query_endpoint: Python's
-- sorted is stable, and the stable descending sort by a total key is a
-- unique function, here realised by stable insertion sort.
def sortByWeightDesc (l : List WeightedResult) : List WeightedResult :=
  l.foldr insertDesc []

-- The ranking tail of query_endpoint: weight, stable-sort, truncate.
def rankResults (m : List (String × Rat)) (raw : List RawResult) (top_k : Nat) :
    List WeightedResult :=
  (sortByWeightDesc (applyWeights m raw)).take top_k

-- The reliability slot of a configured source entry, represented by how
-- isinstance(weight, (int, float)) behaves on it: missing key, a value of
-- a non-numeric type, or an int/float value q.
inductive RelVal where
  | missing : RelVal
  | nonNum : RelVal
  | num : Rat → RelVal
deriving DecidableEq, Repr

-- One entry of the configured sources list, as read by entry.get("name")
-- and entry.get("reliability") in _build_reliability_map.
structure SourceEntry where
  name : Option String
  reliability : RelVal
deriving DecidableEq, Repr

-- Python truthiness of the name slot: absent and the empty string are falsy.
def pyTruthyName : Option String → Bool
  | none => false
  | some s => !s.isEmpty

-- The admission test of _build_reliability_map:
-- name and isinstance(weight, (int, float)) and weight > 0.
def entryValid (e : SourceEntry) : Bool :=
  pyTruthyName e.name &&
    (match e.reliability with
     | RelVal.num q => decide (0 < q)
     | _ => false)

-- Python dict assignment d[k] = v on a string-keyed dict modelled as an
-- association list read through lookup: the newest binding for a key
-- shadows older ones, so lookup after set sees the latest assignment,
-- exactly the get/set observable behaviour the server code relies on.
def dictSet (m : List (String × Rat)) (k : String) (v : Rat) : List (String × Rat) :=
  (k, v) :: m

-- One iteration of the entry loop of _build_reliability_map: store the
-- weight of a valid entry, silently skip everything else.
def mapStep (m : List (String × Rat)) (e : SourceEntry) : List (String × Rat) :=
  if entryValid e then
    match e.name, e.reliability with
    | some n, RelVal.num q => dictSet m n q
    | _, _ => m
  else m

-- The entry loop of _build_reliability_map over an already-extracted
-- entries list.
def buildFromEntries (entries : List SourceEntry) : List (String × Rat) :=
  entries.foldl mapStep []

-- The shapes the configured sources structure can take, as discriminated by
-- the isinstance dispatch of _build_reliability_map: Python None, a mapping
-- with a sources key holding an entries list, a mapping without that key,
-- a bare list of entries, or any other shape.
inductive SourcesConfig where
  | pyNone : SourcesConfig
  | dictWithSources : List SourceEntry → SourcesConfig
  | dictNoSources : SourcesConfig
  | listEntries : List SourceEntry → SourcesConfig
  | otherShape : SourcesConfig
deriving DecidableEq, Repr

-- The dispatch of _build_reliability_map: settings.sources or followed by
-- the isinstance branches.  None is replaced by the empty dict, which is a
-- mapping without a sources key, so it yields no entries, as do a mapping
-- lacking the key and every other shape.
def configEntries : SourcesConfig → List SourceEntry
  | SourcesConfig.dictWithSources es => es
  | SourcesConfig.listEntries es => es
  | _ => []

-- _build_reliability_map of src/api/server.py.py.
def build_reliability_map (c : SourcesConfig) : List (String × Rat) :=
  buildFromEntries (configEntries c)

-- The half-open character windows of a chunk list, for stating offset
-- properties.
def chunkWindows (l : List Chunk) : List (Nat × Nat) :=
  l.map fun c => (c.start_char, c.end_char)

-- Numeric value of a decimal digit character, the left inverse of
-- Nat.digitChar used to prove that the decimal rendering of the chunk
-- index is injective.
def charVal (c : Char) : Nat :=
  c.toNat - 48

-- Invariant lemmas about the chunking loop, by functional induction.

lemma chunkAux_mem_shape (sha256_hex : List Char → List Char) (doc_id text : List Char)
    (chunk_size overlap : Nat) (index ci : Nat) :
    ∀ c ∈ chunkAux sha256_hex doc_id text chunk_size overlap index ci,
      index ≤ c.start_char ∧ c.start_char < text.length ∧
        c.end_char = min (c.start_char + chunk_size) text.length := by
  induction index, ci using chunkAux.induct sha256_hex doc_id text chunk_size overlap with
  | case1 index ci hlt ih =>
    rw [chunkAux.eq_def]
    simp only [dif_pos hlt]
    intro c hc
    rcases List.mem_cons.mp hc with hc | hc
    · subst hc
      exact ⟨Nat.le_refl _, hlt, rfl⟩
    · rcases ih c hc with ⟨h1, h2, h3⟩
      have hstep : 1 ≤ chunkStep chunk_size overlap := le_max_right _ _
      exact ⟨by omega, h2, h3⟩
  | case2 index ci hlt =>
    rw [chunkAux.eq_def]
    simp [hlt]

lemma chunkAux_chain (sha256_hex : List Char → List Char) (doc_id text : List Char)
    (chunk_size overlap : Nat) (index ci : Nat) :
    (chunkAux sha256_hex doc_id text chunk_size overlap index ci).Chain'
      (fun a b =>
        b.start_char = a.start_char + chunkStep chunk_size overlap ∧
        b.start_char < text.length ∧
        a.end_char = min (a.start_char + chunk_size) text.length ∧
        b.end_char = min (b.start_char + chunk_size) text.length) := by
  induction index, ci using chunkAux.induct sha256_hex doc_id text chunk_size overlap with
  | case1 index ci hlt ih =>
    rw [chunkAux.eq_def]
    simp only [dif_pos hlt]
    rw [List.chain'_cons']
    refine ⟨?_, ih⟩
    intro y hy
    by_cases h2 : index + chunkStep chunk_size overlap < text.length
    · rw [chunkAux.eq_def] at hy
      simp only [dif_pos h2, List.head?_cons, Option.mem_some_iff] at hy
      subst hy
      exact ⟨rfl, h2, rfl, rfl⟩
    · rw [chunkAux.eq_def] at hy
      simp [h2] at hy
  | case2 index ci hlt =>
    rw [chunkAux.eq_def]
    simp [hlt]

lemma chunkAux_cover (sha256_hex : List Char → List Char) (doc_id text : List Char)
    (chunk_size overlap : Nat) (hcs : 1 ≤ chunk_size) (index ci : Nat) :
    ∀ p, index ≤ p → p < text.length →
      ∃ c ∈ chunkAux sha256_hex doc_id text chunk_size overlap index ci,
        c.start_char ≤ p ∧ p < c.end_char := by
  induction index, ci using chunkAux.induct sha256_hex doc_id text chunk_size overlap with
  | case1 index ci hlt ih =>
    intro p hip hpL
    rw [chunkAux.eq_def]
    simp only [dif_pos hlt]
    by_cases hp : p < min (index + chunk_size) text.length
    · exact ⟨_, List.mem_cons_self _ _, hip, hp⟩
    · have hstep : chunkStep chunk_size overlap ≤ chunk_size := by
        have : chunk_size - overlap ≤ chunk_size := Nat.sub_le _ _
        exact max_le this hcs
      have hnext : index + chunkStep chunk_size overlap ≤ p := by omega
      rcases ih p hnext hpL with ⟨c, hc, h1, h2⟩
      exact ⟨c, List.mem_cons_of_mem _ hc, h1, h2⟩
  | case2 index ci hlt =>
    intro p hip hpL
    omega

lemma chunkAux_length_le (sha256_hex : List Char → List Char) (doc_id text : List Char)
    (chunk_size overlap : Nat) (index ci : Nat) :
    (chunkAux sha256_hex doc_id text chunk_size overlap index ci).length ≤
      text.length - index := by
  induction index, ci using chunkAux.induct sha256_hex doc_id text chunk_size overlap with
  | case1 index ci hlt ih =>
    rw [chunkAux.eq_def]
    simp only [dif_pos hlt, List.length_cons]
    have hstep : 1 ≤ chunkStep chunk_size overlap := le_max_right _ _
    omega
  | case2 index ci hlt =>
    rw [chunkAux.eq_def]
    simp [hlt]

lemma charVal_digitChar : ∀ d, d < 10 → charVal (Nat.digitChar d) = d := by
  decide

lemma pyStr_leftInv : ∀ n, Nat.ofDigits 10 ((pyStr n).reverse.map charVal) = n := by
  intro n
  by_cases hn : n = 0
  · subst hn
    decide
  · unfold pyStr
    rw [if_neg hn, List.reverse_reverse, List.map_map]
    have hmap : (Nat.digits 10 n).map (charVal ∘ Nat.digitChar) = Nat.digits 10 n := by
      have h1 : ∀ d ∈ Nat.digits 10 n, (charVal ∘ Nat.digitChar) d = id d := by
        intro d hd
        exact charVal_digitChar d (Nat.digits_lt_base (by norm_num) hd)
      rw [List.map_congr_left h1, List.map_id]
    rw [hmap, Nat.ofDigits_digits]

lemma pyStr_injective : Function.Injective pyStr := by
  intro m n h
  have hm := pyStr_leftInv m
  rw [h, pyStr_leftInv n] at hm
  exact hm.symm

lemma chunk_document_of_ne (sha256_hex : List Char → List Char) (doc_id text : List Char)
    (chunk_size overlap : Nat) (hne : text ≠ []) :
    chunk_document sha256_hex doc_id text chunk_size overlap =
      chunkAux sha256_hex doc_id text chunk_size overlap 0 0 := by
  cases text with
  | nil => exact absurd rfl hne
  | cons a l => rfl

lemma chunk_document_length_le (sha256_hex : List Char → List Char) (doc_id text : List Char)
    (chunk_size overlap : Nat) :
    (chunk_document sha256_hex doc_id text chunk_size overlap).length ≤ text.length := by
  cases text with
  | nil => simp [chunk_document]
  | cons a l =>
    rw [chunk_document_of_ne _ _ _ _ _ (by simp)]
    have := chunkAux_length_le sha256_hex doc_id (a :: l) chunk_size overlap 0 0
    omega

/-- C1 (amended): for every non-empty text, chunk_size at least 1 and any
overlap, the union of the half-open start/end windows of the chunks returned
by chunk_document is exactly the interval from 0 to the text length, and
every consecutive pair of windows overlaps, the overlap being exactly
min overlap (chunk_size - 1) whenever the earlier chunk is full length;
this equals the configured overlap precisely when overlap < chunk_size. -/
theorem claim_C1 (sha256_hex : List Char → List Char) (doc_id text : List Char)
    (chunk_size overlap : Nat) (hne : text ≠ []) (hcs : 1 ≤ chunk_size) :
    (∀ p, p < text.length →
      ∃ c ∈ chunk_document sha256_hex doc_id text chunk_size overlap,
        c.start_char ≤ p ∧ p < c.end_char) ∧
    (∀ c ∈ chunk_document sha256_hex doc_id text chunk_size overlap,
      c.end_char ≤ text.length) ∧
    (chunk_document sha256_hex doc_id text chunk_size overlap).Chain'
      (fun a b => b.start_char ≤ a.end_char ∧
        (a.end_char = a.start_char + chunk_size →
          a.end_char - b.start_char = min overlap (chunk_size - 1))) := by
  rw [chunk_document_of_ne sha256_hex doc_id text chunk_size overlap hne]
  refine ⟨?_, ?_, ?_⟩
  · intro p hp
    exact chunkAux_cover sha256_hex doc_id text chunk_size overlap hcs 0 0 p
      (Nat.zero_le _) hp
  · intro c hc
    rcases chunkAux_mem_shape sha256_hex doc_id text chunk_size overlap 0 0 c hc with
      ⟨_, _, h3⟩
    omega
  · refine (chunkAux_chain sha256_hex doc_id text chunk_size overlap 0 0).imp ?_
    intro a b hab
    rcases hab with ⟨h1, h2, h3, h4⟩
    simp only [chunkStep] at h1
    constructor
    · omega
    · intro he
      omega

/-- C1 counterexample: with text ABCD, chunk_size 2 and overlap 5 the step
is floored to 1 and the emitted windows are [0,2), [1,3), [2,4), [3,4);
even after the final chunk is dropped, consecutive windows overlap by 1,
not by the configured overlap 5, so the claim as stated fails. -/
theorem claim_C1_counterexample :
    chunkWindows (chunk_document id ['d'] ['A', 'B', 'C', 'D'] 2 5) =
      [(0, 2), (1, 3), (2, 4), (3, 4)] ∧
    ¬ ((chunkWindows (chunk_document id ['d'] ['A', 'B', 'C', 'D'] 2 5)).dropLast.Chain'
        (fun a b => a.2 - b.1 = 5)) := by
  have hw : chunkWindows (chunk_document id ['d'] ['A', 'B', 'C', 'D'] 2 5) =
      [(0, 2), (1, 3), (2, 4), (3, 4)] := by
    simp [chunk_document, chunkAux, chunkStep, pySlice, chunkWindows]
  refine ⟨hw, ?_⟩
  rw [hw]
  simp [List.chain'_cons]

theorem claim_C1_witness :
    (['A', 'B'] : List Char) ≠ [] ∧ 1 ≤ 2 ∧
    ((∀ p, p < (['A', 'B'] : List Char).length →
      ∃ c ∈ chunk_document id ['d'] ['A', 'B'] 2 1,
        c.start_char ≤ p ∧ p < c.end_char) ∧
    (∀ c ∈ chunk_document id ['d'] ['A', 'B'] 2 1,
      c.end_char ≤ (['A', 'B'] : List Char).length) ∧
    (chunk_document id ['d'] ['A', 'B'] 2 1).Chain'
      (fun a b => b.start_char ≤ a.end_char ∧
        (a.end_char = a.start_char + 2 →
          a.end_char - b.start_char = min 1 (2 - 1)))) :=
  ⟨by decide, by decide, claim_C1 id ['d'] ['A', 'B'] 2 1 (by decide) (by decide)⟩

/-- C2: the chunking loop terminates on every input because the step is
floored at 1, and the number of emitted chunks never exceeds the text
length; in particular a 100 character text with chunk_size 4 and
overlap 10 yields at most 100 chunks. -/
theorem claim_C2 (sha256_hex : List Char → List Char) (doc_id text : List Char)
    (chunk_size overlap : Nat) :
    (chunk_document sha256_hex doc_id text chunk_size overlap).length ≤ text.length ∧
    (chunk_document id ['d'] (List.replicate 100 'x') 4 10).length ≤ 100 := by
  constructor
  · exact chunk_document_length_le sha256_hex doc_id text chunk_size overlap
  · have h := chunk_document_length_le id ['d'] (List.replicate 100 'x') 4 10
    simpa using h

/-- C5: chunk_id is a pure function of the doc id, the chunk index and the
content hash of the chunk text (texts with equal hashes give equal ids),
and for an injective (collision-free) hash, chunks with identical text but
different chunk_index always receive different ids. -/
theorem claim_C5 (sha256_hex : List Char → List Char)
    (hinj : Function.Injective sha256_hex) :
    (∀ doc_id i ta tb, sha256_hex ta = sha256_hex tb →
      chunkId sha256_hex doc_id i ta = chunkId sha256_hex doc_id i tb) ∧
    (∀ doc_id i j t, i ≠ j →
      chunkId sha256_hex doc_id i t ≠ chunkId sha256_hex doc_id j t) := by
  constructor
  · intro doc_id i ta tb h
    unfold chunkId
    rw [h]
  · intro doc_id i j t hij heq
    unfold chunkId at heq
    have h1 := hinj heq
    have h2 := List.append_cancel_left (List.append_cancel_right h1)
    exact hij (pyStr_injective h2)

theorem claim_C5_witness :
    Function.Injective (id : List Char → List Char) ∧
    chunkId id ['d'] 0 ['A'] ≠ chunkId id ['d'] 1 ['A'] :=
  ⟨fun a b h => h, (claim_C5 id (fun a b h => h)).2 ['d'] 0 1 ['A'] (by decide)⟩

/-- C8: every chunk record satisfies start_char < end_char and
end_char at most the text length, and both offsets are monotonically
non-decreasing along the emitted chunk list. -/
theorem claim_C8 (sha256_hex : List Char → List Char) (doc_id text : List Char)
    (chunk_size overlap : Nat) (hcs : 1 ≤ chunk_size) :
    (∀ c ∈ chunk_document sha256_hex doc_id text chunk_size overlap,
      c.start_char < c.end_char ∧ c.end_char ≤ text.length) ∧
    (chunk_document sha256_hex doc_id text chunk_size overlap).Pairwise
      (fun a b => a.start_char ≤ b.start_char ∧ a.end_char ≤ b.end_char) := by
  by_cases hne : text = []
  · subst hne
    refine ⟨?_, ?_⟩ <;> simp [chunk_document]
  · rw [chunk_document_of_ne sha256_hex doc_id text chunk_size overlap hne]
    constructor
    · intro c hc
      rcases chunkAux_mem_shape sha256_hex doc_id text chunk_size overlap 0 0 c hc with
        ⟨_, h2, h3⟩
      omega
    · haveI : IsTrans Chunk
          (fun a b => a.start_char ≤ b.start_char ∧ a.end_char ≤ b.end_char) :=
        ⟨fun a b c hab hbc => ⟨le_trans hab.1 hbc.1, le_trans hab.2 hbc.2⟩⟩
      refine List.chain'_iff_pairwise.mp
        ((chunkAux_chain sha256_hex doc_id text chunk_size overlap 0 0).imp ?_)
      intro a b hab
      rcases hab with ⟨h1, h2, h3, h4⟩
      simp only [chunkStep] at h1
      constructor <;> omega

theorem claim_C8_witness :
    1 ≤ 2 ∧
    ((∀ c ∈ chunk_document id ['d'] ['A', 'B', 'C'] 2 1,
      c.start_char < c.end_char ∧ c.end_char ≤ (['A', 'B', 'C'] : List Char).length) ∧
    (chunk_document id ['d'] ['A', 'B', 'C'] 2 1).Pairwise
      (fun a b => a.start_char ≤ b.start_char ∧ a.end_char ≤ b.end_char)) :=
  ⟨by decide, claim_C8 id ['d'] ['A', 'B', 'C'] 2 1 (by decide)⟩

-- Lemmas about the reliability map construction.

lemma dictSet_lookup (m : List (String × Rat)) (k : String) (v : Rat) (n : String) :
    (dictSet m k v).lookup n = if n = k then some v else m.lookup n := by
  by_cases h : n = k
  · simp [dictSet, List.lookup, h]
  · have hb : (n == k) = false := beq_eq_false_iff_ne.mpr h
    simp [dictSet, List.lookup, hb, h]

lemma mapStep_invalid (m : List (String × Rat)) (e : SourceEntry)
    (h : entryValid e = false) : mapStep m e = m := by
  unfold mapStep
  rw [h]
  simp

lemma foldl_mapStep_filter (entries : List SourceEntry) :
    ∀ m, entries.foldl mapStep m = (entries.filter entryValid).foldl mapStep m := by
  induction entries with
  | nil => intro m; rfl
  | cons e es ih =>
    intro m
    by_cases h : entryValid e
    · simp only [List.filter_cons, h, if_pos, List.foldl_cons]
      exact ih (mapStep m e)
    · have h' : entryValid e = false := by simpa using h
      simp only [List.filter_cons, h', Bool.false_eq_true, if_false, List.foldl_cons,
        mapStep_invalid m e h']
      exact ih m

lemma foldl_mapStep_pos (entries : List SourceEntry) :
    ∀ m, (∀ n q, m.lookup n = some q → 0 < q) →
      ∀ n q, (entries.foldl mapStep m).lookup n = some q → 0 < q := by
  induction entries with
  | nil => intro m hm; exact hm
  | cons e es ih =>
    intro m hm
    refine ih (mapStep m e) ?_
    intro n q hq
    unfold mapStep at hq
    by_cases hv : entryValid e
    · rw [if_pos hv] at hq
      rcases e with ⟨ename, erel⟩
      cases ename with
      | none => simp [entryValid, pyTruthyName] at hv
      | some nm =>
        cases erel with
        | missing => simp [entryValid] at hv
        | nonNum => simp [entryValid] at hv
        | num w =>
          simp only [] at hq
          rw [dictSet_lookup] at hq
          by_cases hn : n = nm
          · rw [if_pos hn] at hq
            have hw : 0 < w := by
              simp [entryValid] at hv
              exact hv.2
            cases hq
            exact hw
          · rw [if_neg hn] at hq
            exact hm n q hq
    · rw [if_neg hv] at hq
      exact hm n q hq

lemma foldl_mapStep_absent (entries : List SourceEntry) :
    ∀ (m : List (String × Rat)) (n : String),
      (∀ e ∈ entries, e.name = some n → entryValid e = false) →
      m.lookup n = none →
      (entries.foldl mapStep m).lookup n = none := by
  induction entries with
  | nil => intro m n _ hm; exact hm
  | cons e es ih =>
    intro m n hinv hm
    refine ih (mapStep m e) n (fun e' he' => hinv e' (List.mem_cons_of_mem _ he')) ?_
    unfold mapStep
    by_cases hv : entryValid e
    · rw [if_pos hv]
      rcases e with ⟨ename, erel⟩
      cases ename with
      | none => simp [entryValid, pyTruthyName] at hv
      | some nm =>
        cases erel with
        | missing => simp [entryValid] at hv
        | nonNum => simp [entryValid] at hv
        | num w =>
          simp only []
          rw [dictSet_lookup]
          by_cases hn : n = nm
          · exfalso
            have := hinv ⟨some nm, RelVal.num w⟩ (List.mem_cons_self _ _) (by rw [hn])
            rw [this] at hv
            simp at hv
          · rw [if_neg hn]
            exact hm
    · rw [if_neg hv]
      exact hm

-- Lemmas about the stable descending sort.

lemma sortByWeightDesc_cons (x : WeightedResult) (l : List WeightedResult) :
    sortByWeightDesc (x :: l) = insertDesc x (sortByWeightDesc l) := rfl

lemma filter_insertDesc (x : WeightedResult) (l : List WeightedResult) (v : Rat) :
    (insertDesc x l).filter (fun r => decide (r.weighted_score = v)) =
      (x :: l).filter (fun r => decide (r.weighted_score = v)) := by
  induction l with
  | nil => rfl
  | cons y ys ih =>
    unfold insertDesc
    by_cases h : y.weighted_score ≤ x.weighted_score
    · rw [if_pos h]
    · rw [if_neg h]
      have hlt : x.weighted_score < y.weighted_score := not_le.mp h
      by_cases hy : y.weighted_score = v
      · have hx : ¬ (x.weighted_score = v) := by
          rw [← hy]
          exact ne_of_lt hlt
        simp [List.filter_cons, hy, hx, ih]
      · simp [List.filter_cons, hy, ih]

/-- C3: the descending sort by weighted_score applied to the weighted
results in query_endpoint is stable: for every input list, the subsequence
of results carrying any given weighted_score value is exactly the same, in
the same order, before and after sorting, so results with equal
weighted_score keep their relative input order. -/
theorem claim_C3 (l : List WeightedResult) (v : Rat) :
    (sortByWeightDesc l).filter (fun r => decide (r.weighted_score = v)) =
      l.filter (fun r => decide (r.weighted_score = v)) := by
  induction l with
  | nil => rfl
  | cons x xs ih =>
    rw [sortByWeightDesc_cons, filter_insertDesc]
    by_cases hx : x.weighted_score = v
    · simp [List.filter_cons, hx, ih]
    · simp [List.filter_cons, hx, ih]

/-- C4: a raw result with a numeric score q gets
weighted_score = q * reliability_map.get(source_name, 1.0); a missing
source name or a source absent from the map falls back to weight 1.0, so
the weighted score equals the raw score unmodified. -/
theorem claim_C4 (m : List (String × Rat)) (r : RawResult) (q : Rat)
    (hq : r.score = RawScore.num q) :
    (weightResult m r).weighted_score = q * getWeight m r.source_name ∧
    (r.source_name = none → (weightResult m r).weighted_score = q) ∧
    (∀ s, r.source_name = some s → m.lookup s = none →
      (weightResult m r).weighted_score = q) := by
  refine ⟨?_, ?_, ?_⟩
  · simp [weightResult, hq, parseScore]
  · intro h
    simp [weightResult, hq, parseScore, getWeight, h]
  · intro s hs hl
    simp [weightResult, hq, parseScore, getWeight, hs, hl]

theorem claim_C4_witness :
    (⟨some "a", RawScore.num 2, 5⟩ : RawResult).score = RawScore.num 2 ∧
    ((weightResult [("b", 3)] ⟨some "a", RawScore.num 2, 5⟩).weighted_score =
        2 * getWeight [("b", 3)] (⟨some "a", RawScore.num 2, 5⟩ : RawResult).source_name ∧
      ((⟨some "a", RawScore.num 2, 5⟩ : RawResult).source_name = none →
        (weightResult [("b", 3)] ⟨some "a", RawScore.num 2, 5⟩).weighted_score = 2) ∧
      (∀ s, (⟨some "a", RawScore.num 2, 5⟩ : RawResult).source_name = some s →
        ([("b", 3)] : List (String × Rat)).lookup s = none →
        (weightResult [("b", 3)] ⟨some "a", RawScore.num 2, 5⟩).weighted_score = 2)) :=
  ⟨rfl, claim_C4 [("b", 3)] ⟨some "a", RawScore.num 2, 5⟩ 2 rfl⟩

/-- C6: during reliability-map construction every entry that is missing a
truthy name or whose reliability is not a positive number contributes
nothing (the map equals the one built from only the valid entries), every
weight observable in the resulting map is positive, and a source name all
of whose entries are invalid is absent from the map and falls back to the
default weight 1.0. -/
theorem claim_C6 (entries : List SourceEntry) :
    buildFromEntries entries = buildFromEntries (entries.filter entryValid) ∧
    (∀ n q, (buildFromEntries entries).lookup n = some q → 0 < q) ∧
    (∀ n : String,
      (∀ e ∈ entries, e.name = some n → entryValid e = false) →
      (buildFromEntries entries).lookup n = none ∧
      getWeight (buildFromEntries entries) (some n) = 1) := by
  refine ⟨foldl_mapStep_filter entries [], foldl_mapStep_pos entries [] (by simp), ?_⟩
  intro n hn
  have h := foldl_mapStep_absent entries [] n hn rfl
  exact ⟨h, by simp [getWeight, buildFromEntries, h]⟩

theorem claim_C6_witness :
    (buildFromEntries [⟨some "C", RelVal.num (-1)⟩, ⟨none, RelVal.num 2⟩,
        ⟨some "C", RelVal.nonNum⟩]).lookup "C" = none ∧
    getWeight (buildFromEntries [⟨some "C", RelVal.num (-1)⟩, ⟨none, RelVal.num 2⟩,
        ⟨some "C", RelVal.nonNum⟩]) (some "C") = 1 :=
  (claim_C6 [⟨some "C", RelVal.num (-1)⟩, ⟨none, RelVal.num 2⟩,
      ⟨some "C", RelVal.nonNum⟩]).2.2 "C" (by decide)

/-- C7 counterexample: a raw result whose score slot is not numeric but is
a value the float conversion successfully converts, such as the numeric
string 2.5, is not treated as score 0.0: its weighted score is the
converted value times the reliability weight, here 5/2, not 0. -/
theorem claim_C7_counterexample :
    (weightResult [] ⟨some "a", RawScore.numStr (5 / 2), 0⟩).weighted_score = 5 / 2 ∧
    ¬ (weightResult [] ⟨some "a", RawScore.numStr (5 / 2), 0⟩).weighted_score = 0 := by
  constructor
  · simp [weightResult, parseScore, getWeight, List.lookup]
  · simp [weightResult, parseScore, getWeight, List.lookup]

/-- C7 (amended): a raw result whose score is missing or whose score value
the float conversion rejects is still ranked, never dropped and never an
error: the weighting loop keeps every record and assigns it
weighted_score 0.  (A non-numeric value the conversion accepts, such as a
numeric string, instead contributes its converted value.) -/
theorem claim_C7 (m : List (String × Rat)) (l : List RawResult) (r : RawResult)
    (hmem : r ∈ l)
    (hs : r.score = RawScore.missing ∨ r.score = RawScore.malformed) :
    (applyWeights m l).length = l.length ∧
    weightResult m r ∈ applyWeights m l ∧
    (weightResult m r).weighted_score = 0 ∧
    (weightResult m r).raw = r := by
  refine ⟨by simp [applyWeights], List.mem_map_of_mem _ hmem, ?_, rfl⟩
  rcases hs with h | h <;> simp [weightResult, parseScore, h]

theorem claim_C7_witness :
    (⟨some "a", RawScore.missing, 0⟩ : RawResult) ∈
      [(⟨some "a", RawScore.missing, 0⟩ : RawResult)] ∧
    ((⟨some "a", RawScore.missing, 0⟩ : RawResult).score = RawScore.missing ∨
      (⟨some "a", RawScore.missing, 0⟩ : RawResult).score = RawScore.malformed) ∧
    ((applyWeights [] [⟨some "a", RawScore.missing, 0⟩]).length =
        ([(⟨some "a", RawScore.missing, 0⟩ : RawResult)]).length ∧
      weightResult [] ⟨some "a", RawScore.missing, 0⟩ ∈
        applyWeights [] [⟨some "a", RawScore.missing, 0⟩] ∧
      (weightResult [] ⟨some "a", RawScore.missing, 0⟩).weighted_score = 0 ∧
      (weightResult [] ⟨some "a", RawScore.missing, 0⟩).raw =
        ⟨some "a", RawScore.missing, 0⟩) :=
  ⟨List.mem_singleton.mpr rfl, Or.inl rfl,
    claim_C7 [] [⟨some "a", RawScore.missing, 0⟩] ⟨some "a", RawScore.missing, 0⟩
      (List.mem_singleton.mpr rfl) (Or.inl rfl)⟩

/-- C9: flag(reason) yields a field with no value, no evidence,
flagged true and flag_reason equal to reason; ok(value, evidence) yields a
populated field with flagged false and no flag_reason. -/
theorem claim_C9 (α : Type) :
    (∀ reason : String, (flag reason : Field α) = ⟨none, none, true, some reason⟩) ∧
    (∀ (v : α) (e : Evidence), ok v e = ⟨some v, some e, false, none⟩) :=
  ⟨fun _ => rfl, fun _ _ => rfl⟩

/-- C10: a configured sources structure that is Python None, a mapping
without a sources key, or any shape other than a list or such a mapping
produces the empty reliability map, so every source name receives the
default weight 1.0. -/
theorem claim_C10 :
    build_reliability_map SourcesConfig.pyNone = [] ∧
    build_reliability_map SourcesConfig.dictNoSources = [] ∧
    build_reliability_map SourcesConfig.otherShape = [] ∧
    (∀ s : String, getWeight (build_reliability_map SourcesConfig.pyNone) (some s) = 1) ∧
    (∀ s : String, getWeight (build_reliability_map SourcesConfig.dictNoSources) (some s) = 1) ∧
    (∀ s : String, getWeight (build_reliability_map SourcesConfig.otherShape) (some s) = 1) := by
  refine ⟨rfl, rfl, rfl, fun s => rfl, fun s => rfl, fun s => rfl⟩

end AuditTrail
